import Mathlib

/-!
# Verification of the football-score-detector core (`count_score.py`)

Shallow embedding of the pure computational core of `count_score.py`.
Conventions used throughout:

* Python integer pairs `(x, y)` become `ℤ × ℤ`; Python 2 integer division
  `/` (floor division) becomes Lean's `Int` division `/` (euclidean
  division, identical to floor division for the positive divisors used
  here); Python `int()` applied to a product with a fractional constant
  becomes truncation toward zero of an exact rational.
* Python floats are idealized as exact reals (`math.sqrt` becomes
  `Real.sqrt`, float division becomes real division).  The fractional
  configuration constants are exact rationals.
* Python's `list.sort()` / `sorted()` (a stable sort by the natural
  lexicographic tuple order, or by a key) becomes `List.insertionSort`
  with the corresponding non-strict relation, which is also stable.
* External image libraries (PIL, OpenCV, scipy.ndimage) are collaborators
  outside this repository: functions are embedded starting from the data
  those libraries hand back (pixel grids, connected-component slices).
  `cv2.transpose` is modelled as matrix transposition of a rectangular
  pixel grid; numpy 2-d slicing is modelled with Python slice semantics.
* Fallible code (`raise ValueError`) returns `Except`.
-/

namespace CountScore

open List

/-- Integer pixel coordinate `(x, y)`, as produced by the corner and
centroid computations in `count_score.py`. -/
abbrev Pt := ℤ × ℤ

/-- Source `flip`: swap the two components of a coordinate pair. -/
def flip (c : Pt) : Pt := (c.2, c.1)

/-- Componentwise addition of coordinate pairs (the source's inline
tuple additions such as `(middle1_a[0] + add1[0], middle1_a[1] + add1[1])`). -/
def addPt (a b : Pt) : Pt := (a.1 + b.1, a.2 + b.2)

/-- Source `distance_between_points`: euclidean distance between
the two points of the tuple `p`, `sqrt((x2-x1)**2 + (y2-y1)**2)`. -/
noncomputable def distance_between_points (p : Pt × Pt) : ℝ :=
  Real.sqrt ((((p.2.1 - p.1.1 : ℤ) : ℝ)) ^ 2 + (((p.2.2 - p.1.2 : ℤ) : ℝ)) ^ 2)

/-- Python's lexicographic `<=` on integer pairs (tuple comparison),
the order used by `points.sort()`, `sorted(box)` and `min`/`max` on
coordinate tuples. -/
def pointLe (a b : Pt) : Prop := a.1 < b.1 ∨ (a.1 = b.1 ∧ a.2 ≤ b.2)

/-- Python's lexicographic `<` on integer pairs. -/
def pointLt (a b : Pt) : Prop := a.1 < b.1 ∨ (a.1 = b.1 ∧ a.2 < b.2)

/-- Python's lexicographic `<=` on pairs of points, the order used by
`ends.sort()` on a list of 2-tuples of coordinate tuples. -/
def pairLe (a b : Pt × Pt) : Prop := pointLt a.1 b.1 ∨ (a.1 = b.1 ∧ pointLe a.2 b.2)

instance : DecidableRel pointLe := fun a b =>
  decidable_of_iff (a.1 < b.1 ∨ (a.1 = b.1 ∧ a.2 ≤ b.2)) Iff.rfl

instance : DecidableRel pointLt := fun a b =>
  decidable_of_iff (a.1 < b.1 ∨ (a.1 = b.1 ∧ a.2 < b.2)) Iff.rfl

instance : DecidableRel pairLe := fun a b =>
  decidable_of_iff (pointLt a.1 b.1 ∨ (a.1 = b.1 ∧ pointLe a.2 b.2)) Iff.rfl

/-- The comparison-by-distance relation used by
`heapq.nsmallest(2, combinations, key=distance_between_points)`
(equivalent to a stable sort by the key, then taking the first two). -/
noncomputable def distLe (a b : Pt × Pt) : Prop :=
  distance_between_points a ≤ distance_between_points b

noncomputable instance : DecidableRel distLe := fun a b =>
  Real.decidableLE (distance_between_points a) (distance_between_points b)

/-- Constant `SCORE_BLOCK_LENGTH = 0.045` (exact rational). -/
def SCORE_BLOCK_LENGTH : ℚ := 0.045

/-- Constant `SCORE_INNER_MARGIN = 0.015` (exact rational). -/
def SCORE_INNER_MARGIN : ℚ := 0.015

/-- Constant `SCORE_TO_MIDDLE_MARGIN = 0.17` (exact rational). -/
def SCORE_TO_MIDDLE_MARGIN : ℚ := 0.17

/-- Constant `MIN_SCORE_AREA = 15`. -/
def MIN_SCORE_AREA : ℤ := 15

/-- Constant `MAX_SCORE_AREA = 120`. -/
def MAX_SCORE_AREA : ℤ := 120

/-- Python `int()` applied to a (here: exact rational) value:
truncation toward zero. -/
def itrunc (q : ℚ) : ℤ := if 0 ≤ q then ⌊q⌋ else ⌈q⌉

/-- Source `middle_point`: componentwise
`((p1[0] + p2[0]) / 2, (p1[1] + p2[1]) / 2)` with Python 2 floor
division (for the divisor 2 this is Lean's `Int` division). -/
def middle_point (p1 p2 : Pt) : Pt := ((p1.1 + p2.1) / 2, (p1.2 + p2.2) / 2)

/-- Source `calculate_coordinate_addition`:
`(int((m2[0]-m1[0]) * percent), int((m2[1]-m1[1]) * percent))`. -/
def calculate_coordinate_addition (m1 m2 : Pt) (percent : ℚ) : Pt :=
  (itrunc (((m2.1 - m1.1 : ℤ) : ℚ) * percent), itrunc (((m2.2 - m1.2 : ℤ) : ℚ) * percent))

/-- An ordered 4-point quadrilateral, as returned by `calculate_score_box`. -/
abbrev Box := Pt × Pt × Pt × Pt

/-- Source `calculate_score_box`: returns
`(middle_b, middle_a, box_a, box_b)` where the `box_` points are the
inputs translated by `addition`. -/
def calculate_score_box (middle_a middle_b addition : Pt) : Box :=
  (middle_b, middle_a, addPt middle_a addition, addPt middle_b addition)

/-- Python `itertools.combinations(points, 2)`, in emission order. -/
def combinations2 {α : Type} : List α → List (α × α)
  | [] => []
  | x :: xs => (xs.map (fun y => (x, y))) ++ combinations2 xs

/-- Source `find_table_ends`: the two pairs of corners with the
smallest pairwise distance (`heapq.nsmallest(2, ..., key=distance)`,
i.e. a stable sort by distance followed by taking the first two),
then sorted by Python tuple order (`ends.sort()`). -/
noncomputable def find_table_ends (points : List Pt) : List (Pt × Pt) :=
  insertionSort pairLe ((insertionSort distLe (combinations2 points)).take 2)

/-- Source `table_end_middles`: the midpoint of a table end and
the two quarter points, each pushed away from the midpoint by
`SCORE_TO_MIDDLE_MARGIN` of the quarter-point-to-midpoint offset. -/
def table_end_middles (e : Pt × Pt) : Pt × Pt × Pt :=
  let middle := middle_point e.1 e.2
  let middle_a := middle_point e.1 middle
  let middle_b := middle_point e.2 middle
  let add1 := calculate_coordinate_addition middle_a middle SCORE_TO_MIDDLE_MARGIN
  let add2 := calculate_coordinate_addition middle_b middle SCORE_TO_MIDDLE_MARGIN
  (middle, addPt middle_a add1, addPt middle_b add2)

/-- Source `find_score_boxes`.  `ends` always has exactly two
elements when called on four corners (six pairwise combinations), so the
source's tuple unpacking `end1, end2 = ends` is embedded with list
indexing (the defaults are unreachable for 4-corner input). -/
noncomputable def find_score_boxes (corners : List Pt) : Box × Box :=
  let ends := find_table_ends corners
  let end1 := ends.getD 0 ((0, 0), (0, 0))
  let end2 := ends.getD 1 ((0, 0), (0, 0))
  let tm1 := table_end_middles end1
  let tm2 := table_end_middles end2
  let middle1 := tm1.1
  let middle2 := tm2.1
  let add1 := calculate_coordinate_addition middle1 middle2 SCORE_INNER_MARGIN
  let add2 := calculate_coordinate_addition middle2 middle1 SCORE_INNER_MARGIN
  let middle1_a := addPt tm1.2.1 add1
  let middle1_b := addPt tm1.2.2 add1
  let middle2_a := addPt tm2.2.1 add2
  let middle2_b := addPt tm2.2.2 add2
  let addition1 := calculate_coordinate_addition middle1 middle2 SCORE_BLOCK_LENGTH
  let addition2 := calculate_coordinate_addition middle2 middle1 SCORE_BLOCK_LENGTH
  (calculate_score_box middle1_a middle1_b addition1,
   calculate_score_box middle2_a middle2_b addition2)

/-- Python `min` over a non-empty list of coordinate tuples: scan,
replacing the current minimum only on strictly smaller elements (so ties
keep the earliest occurrence).  The default for `[]` is unreachable in
the source (`min` of two elements). -/
def pyMin : List Pt → Pt
  | [] => (0, 0)
  | x :: xs => xs.foldl (fun cur y => if pointLt y cur then y else cur) x

/-- Python `max` over a non-empty list of coordinate tuples: scan,
replacing the current maximum only on strictly larger elements. -/
def pyMax : List Pt → Pt
  | [] => (0, 0)
  | x :: xs => xs.foldl (fun cur y => if pointLt cur y then y else cur) x

/-- Source `find_crop_corners`: sort the box corners by tuple
order, classify the two leftmost and two rightmost, then take the
minimum of the flipped left coordinates as the top-left and the maximum
of the flipped right coordinates as the bottom-right. -/
def find_crop_corners (box : List Pt) : Pt × Pt :=
  let s := insertionSort pointLe box
  let left_coords := (s.take 2).map flip
  let right_coords := (s.drop 2).map flip
  (flip (pyMin left_coords), flip (pyMax right_coords))

/-- Index normalization of Python slice semantics: negative indices
count from the end, and indices are clamped to `[0, n]`. -/
def pySliceIdx (i : ℤ) (n : ℕ) : ℕ :=
  if i < 0 then n - min n i.natAbs else min n i.toNat

/-- Python / numpy 1-d slice `l[a:b]`. -/
def pySlice {α : Type} (l : List α) (a b : ℤ) : List α :=
  (l.take (pySliceIdx b l.length)).drop (pySliceIdx a l.length)

/-- External `cv2.transpose` modelled as matrix transposition
of a rectangular pixel grid: row `j` of the output collects entry `j` of
every input row. -/
def cvTranspose {α : Type} (m : List (List α)) : List (List α) :=
  match m with
  | [] => []
  | r0 :: _ => (List.range r0.length).map (fun j => m.filterMap (fun row => row[j]?))

/-- The body of the loop in `crop_boxes` for a single box: derive the
axis-aligned rectangle from the box corners, slice it out of the image
(`image[y1:y2, x1:x2]`), then `cv2.transpose` and `cv2.flip(., 0)`
(vertical flip, i.e. reverse the row order). -/
def crop_box {α : Type} (image : List (List α)) (box : List Pt) : List (List α) :=
  let tl := (find_crop_corners box).1
  let br := (find_crop_corners box).2
  let cropped := (pySlice image tl.2 br.2).map (fun row => pySlice row tl.1 br.1)
  (cvTranspose cropped).reverse

/-- Source `crop_boxes`: crop every box from the image. -/
def crop_boxes {α : Type} (image : List (List α)) (boxes : List (List Pt)) :
    List (List (List α)) :=
  boxes.map (crop_box image)

/-- An `ndimage.find_objects` slice, `(start, stop)`. -/
abbrev Slc := ℤ × ℤ

/-- A connected component's bounding box as a pair of slices `(dy, dx)`,
exactly what `ndimage.find_objects` hands back per labelled object. -/
abbrev SlicePair := Slc × Slc

/-- The component area used by `find_score_from_image`:
`abs((dx.stop - dx.start) * (dy.stop - dy.start))`, i.e. the bounding-box
width times height, not the pixel count. -/
def slice_area (s : SlicePair) : ℤ := |(s.2.2 - s.2.1) * (s.1.2 - s.1.1)|

/-- The component centroid used by `find_score_from_image`:
`((dx.start + dx.stop - 1) / 2, (dy.start + dy.stop - 1) / 2)` with
Python 2 floor division. -/
def slice_center (s : SlicePair) : Pt :=
  ((s.2.1 + s.2.2 - 1) / 2, (s.1.1 + s.1.2 - 1) / 2)

/-- The keep condition of the area filter in `find_score_from_image`:
a component is skipped when `area < MIN_SCORE_AREA or area > MAX_SCORE_AREA`. -/
def keeps_area (s : SlicePair) : Bool :=
  !(decide (slice_area s < MIN_SCORE_AREA) || decide (slice_area s > MAX_SCORE_AREA))

/-- The error raised by `find_score_from_image` when the number of
surviving components differs from the 12 it expects (the source's
`ValueError` reports both the found and the expected count). -/
inductive ScoreError where
  | invalidDotCount (found expected : ℕ)
deriving DecidableEq

/-- The consecutive-pair distances `distance_between_points((points[i], points[i+1]))`
collected by both `average_distance_between_score_dots` and the scoring
loop of `find_score`. -/
noncomputable def consecutiveDistances : List Pt → List ℝ
  | p :: q :: rest => distance_between_points (p, q) :: consecutiveDistances (q :: rest)
  | _ => []

/-- Source `average_distance_between_score_dots`: the sum of
the consecutive-pair distances divided by their number (Python float
division; the source raises on a single point, a case never reached by
its caller, which guarantees 12 points). -/
noncomputable def average_distance_between_score_dots (points : List Pt) : ℝ :=
  (consecutiveDistances points).sum / (consecutiveDistances points).length

/-- The scoring loop of `find_score`: walk the consecutive pairs,
incrementing once per gap that does not exceed `avg`, stopping at the
first gap strictly exceeding `avg`. -/
noncomputable def score_walk (avg : ℝ) : List Pt → ℕ
  | p :: q :: rest =>
    if distance_between_points (p, q) > avg then 0 else score_walk avg (q :: rest) + 1
  | _ => 0

/-- Source `find_score`: sort the points left-to-right by
Python tuple order, then run the scoring loop against the average
consecutive distance of the sorted list. -/
noncomputable def find_score (points : List Pt) : ℕ :=
  let sorted := insertionSort pointLe points
  score_walk (average_distance_between_score_dots sorted) sorted

/-- Source `find_score_from_image`, embedded from the point
where `ndimage.label`/`find_objects` (external library) has produced the
per-component slices: filter by bounding-box area, take centroids,
require exactly 12 survivors, then score. -/
noncomputable def find_score_from_image (slices : List SlicePair) : Except ScoreError ℕ :=
  let objects := (slices.filter keeps_area).map slice_center
  if objects.length ≠ 12 then .error (.invalidDotCount objects.length 12)
  else .ok (find_score objects)

/-- The score record assembled by `get_score`.  Scores are integers
because the left score is computed as `10 - rawCount`. -/
structure ScoreData where
  leftScore : ℤ
  rightScore : ℤ
deriving DecidableEq

/-- The score assembly of `get_score` (source lines 146-166), embedded
from the point where the two per-region binary masks have been labelled
into component slices (everything before that is external image-library
work): the left region's raw count is inverted, the right one is used
as is, and a failure on either region aborts the whole computation. -/
noncomputable def get_score (left right : List SlicePair) : Except ScoreError ScoreData :=
  match find_score_from_image left with
  | .error e => .error e
  | .ok l =>
    match find_score_from_image right with
    | .error e => .error e
    | .ok r => .ok { leftScore := 10 - (l : ℤ), rightScore := (r : ℤ) }

/-- Source `find_lower_long_side`, for the 4-corner input it
always receives: sort the flipped corners by `(y, x)`, take the last as
the lowest point, and pick whichever of the 2nd and 3rd entries is
strictly farther from it (ties go to the 3rd, as in the source's
conditional expression); the defaults are unreachable for length-4
input. -/
noncomputable def find_lower_long_side (c0 c1 c2 c3 : Pt) : Pt × Pt :=
  let s := insertionSort pointLe [flip c0, flip c1, flip c2, flip c3]
  let lowest := s.getD 3 (0, 0)
  let second := s.getD 1 (0, 0)
  let third := s.getD 2 (0, 0)
  let distance_a := distance_between_points (lowest, second)
  let distance_b := distance_between_points (lowest, third)
  let point_b := if distance_a > distance_b then second else third
  (flip lowest, flip point_b)

/-! ## Auxiliary constructions used by the theorems -/

/-- The survivors of the area filter as the specification phrases it:
the components whose bounding-box area lies inclusively between
`MIN_SCORE_AREA` and `MAX_SCORE_AREA`.  Named from the spec's words, to
be compared with the code's skip condition `keeps_area`. -/
def specSurvivors (slices : List SlicePair) : List SlicePair :=
  slices.filter (fun s => decide (MIN_SCORE_AREA ≤ slice_area s ∧ slice_area s ≤ MAX_SCORE_AREA))

/-- A horizontal row of points at height `y0` starting at `x0`, with the
given consecutive x-gaps.  Used to build concrete dot configurations. -/
def ptsFromGaps (x0 y0 : ℤ) : List ℤ → List Pt
  | [] => [(x0, y0)]
  | g :: gs => (x0, y0) :: ptsFromGaps (x0 + g) y0 gs

/-- Scaling of a coordinate pair by an integer factor. -/
def scalePt (k : ℤ) (p : Pt) : Pt := (k * p.1, k * p.2)

/-- Point `p'` approximates `k` times `p` within `e` in each coordinate. -/
def approxPt (k : ℤ) (p' p : Pt) (e : ℤ) : Prop :=
  |p'.1 - k * p.1| ≤ e ∧ |p'.2 - k * p.2| ≤ e

/-- Box `b'` approximates `k` times `b` within `e` in every coordinate of
the four box points. -/
def approxBox (k : ℤ) (b' b : Box) (e : ℤ) : Prop :=
  approxPt k b'.1 b.1 e ∧ approxPt k b'.2.1 b.2.1 e ∧
  approxPt k b'.2.2.1 b.2.2.1 e ∧ approxPt k b'.2.2.2 b.2.2.2 e

/-- Twelve connected-component slice pairs, each a 4x4 bounding box
(area 16, inside the area bounds), with centroids (8i+1, 1) spaced
evenly 8 apart. -/
def L12 : List SlicePair :=
  [((0, 4), (0, 4)), ((0, 4), (8, 12)), ((0, 4), (16, 20)), ((0, 4), (24, 28)),
   ((0, 4), (32, 36)), ((0, 4), (40, 44)), ((0, 4), (48, 52)), ((0, 4), (56, 60)),
   ((0, 4), (64, 68)), ((0, 4), (72, 76)), ((0, 4), (80, 84)), ((0, 4), (88, 92))]

/-- Eleven valid-area component slice pairs (one fewer than required). -/
def L11 : List SlicePair := L12.take 11

/-- A tiny concrete 3x3 image. -/
def img3 : List (List ℤ) := [[1, 2, 3], [4, 5, 6], [7, 8, 9]]

/-- A degenerate box whose four corners coincide, so the derived
axis-aligned rectangle has zero width and zero height. -/
def degBox : List Pt := [(1, 1), (1, 1), (1, 1), (1, 1)]

/-- Twelve collinear points with unit gaps. -/
def pts12unit : List Pt := ptsFromGaps 0 0 (List.replicate 11 1)

/-! ## Basic order facts -/

instance : IsTotal Pt pointLe := by
  constructor
  intro a b
  unfold pointLe
  omega

instance : IsTrans Pt pointLe := by
  constructor
  intro a b c hab hbc
  unfold pointLe at *
  omega

instance : IsRefl Pt pointLe := by
  constructor
  intro a
  unfold pointLe
  omega

instance : IsTotal (Pt × Pt) pairLe := by
  constructor
  intro a b
  unfold pairLe pointLt pointLe
  obtain ⟨a1, a2⟩ := a
  obtain ⟨b1, b2⟩ := b
  simp only [Prod.ext_iff]
  omega

instance : IsTrans (Pt × Pt) pairLe := by
  constructor
  intro a b c hab hbc
  unfold pairLe pointLt pointLe at *
  obtain ⟨a1, a2⟩ := a
  obtain ⟨b1, b2⟩ := b
  obtain ⟨c1, c2⟩ := c
  simp only [Prod.ext_iff] at *
  omega

instance : IsTotal (Pt × Pt) distLe := by
  constructor
  intro a b
  exact le_total _ _

instance : IsTrans (Pt × Pt) distLe := by
  constructor
  intro a b c hab hbc
  exact le_trans hab hbc

theorem pointLe_fst {a b : Pt} (h : pointLe a b) : a.1 ≤ b.1 := by
  unfold pointLe at h
  omega

theorem flip_flip (p : Pt) : flip (flip p) = p := rfl

/-! ## Distance evaluation -/

/-- Integer-distance evaluation: when the squared coordinate differences
sum to a perfect square `e^2` with `e ≥ 0`, the distance is `e`. -/
theorem dist_eval {a b c d : ℤ} (e : ℤ) (he : 0 ≤ e)
    (h : (c - a) ^ 2 + (d - b) ^ 2 = e ^ 2) :
    distance_between_points ((a, b), (c, d)) = (e : ℝ) := by
  unfold distance_between_points
  have hcast : (((c - a : ℤ) : ℝ)) ^ 2 + (((d - b : ℤ) : ℝ)) ^ 2 = ((e : ℤ) : ℝ) ^ 2 := by
    exact_mod_cast congrArg (fun z : ℤ => (z : ℝ)) h
  simp only [hcast]
  rw [Real.sqrt_sq (by exact_mod_cast he)]

theorem dist_flip (p q : Pt) :
    distance_between_points (flip p, flip q) = distance_between_points (p, q) := by
  unfold distance_between_points flip
  ring_nf

theorem dist_nonneg' (p : Pt × Pt) : 0 ≤ distance_between_points p :=
  Real.sqrt_nonneg _

/-! ## The scoring walk -/

theorem consecutiveDistances_length (l : List Pt) :
    (consecutiveDistances l).length = l.length - 1 := by
  induction l with
  | nil => simp [consecutiveDistances]
  | cons p tail ih =>
    cases tail with
    | nil => simp [consecutiveDistances]
    | cons q rest =>
      simp only [consecutiveDistances, length_cons] at *
      omega

theorem score_walk_eq_takeWhile (avg : ℝ) (l : List Pt) :
    score_walk avg l =
      ((consecutiveDistances l).takeWhile (fun g => decide (g ≤ avg))).length := by
  induction l with
  | nil => simp [score_walk, consecutiveDistances]
  | cons p tail ih =>
    cases tail with
    | nil => simp [score_walk, consecutiveDistances]
    | cons q rest =>
      simp only [score_walk, consecutiveDistances]
      by_cases h : distance_between_points (p, q) > avg
      · rw [if_pos h, takeWhile_cons]
        simp [not_le.mpr h]
      · rw [if_neg h, takeWhile_cons]
        simp only [not_lt] at h
        simp [h, ih]

theorem score_walk_le (avg : ℝ) (l : List Pt) : score_walk avg l ≤ l.length - 1 := by
  induction l with
  | nil => simp [score_walk]
  | cons p tail ih =>
    cases tail with
    | nil => simp [score_walk]
    | cons q rest =>
      simp only [score_walk, length_cons]
      by_cases h : distance_between_points (p, q) > avg
      · rw [if_pos h]
        omega
      · rw [if_neg h]
        simp only [length_cons] at ih
        omega

theorem find_score_le (points : List Pt) : find_score points ≤ points.length - 1 := by
  have h := score_walk_le
    (average_distance_between_score_dots (insertionSort pointLe points))
    (insertionSort pointLe points)
  simpa [find_score, length_insertionSort] using h

/-! ## Rows of points built from gap lists -/

theorem ptsFromGaps_length (x0 y0 : ℤ) (gs : List ℤ) :
    (ptsFromGaps x0 y0 gs).length = gs.length + 1 := by
  induction gs generalizing x0 with
  | nil => rfl
  | cons g gs ih => simp [ptsFromGaps, ih]

theorem ptsFromGaps_mem {gs : List ℤ} (hg : ∀ g ∈ gs, 0 ≤ g) :
    ∀ {x0 y0 : ℤ}, ∀ p ∈ ptsFromGaps x0 y0 gs, x0 ≤ p.1 ∧ p.2 = y0 := by
  induction gs with
  | nil =>
    intro x0 y0 p hp
    simp only [ptsFromGaps, mem_singleton] at hp
    subst hp
    exact ⟨le_refl _, rfl⟩
  | cons g gs ih =>
    intro x0 y0 p hp
    have hg0 : 0 ≤ g := hg g (by simp)
    simp only [ptsFromGaps, mem_cons] at hp
    rcases hp with rfl | hp
    · exact ⟨le_refl _, rfl⟩
    · have := ih (fun g hgm => hg g (mem_cons_of_mem _ hgm)) p hp
      exact ⟨by omega, this.2⟩

theorem ptsFromGaps_sorted {gs : List ℤ} (hg : ∀ g ∈ gs, 0 ≤ g) (x0 y0 : ℤ) :
    Sorted pointLe (ptsFromGaps x0 y0 gs) := by
  induction gs generalizing x0 with
  | nil => simp [ptsFromGaps]
  | cons g gs ih =>
    have hgtail : ∀ g ∈ gs, 0 ≤ g := fun g hgm => hg g (mem_cons_of_mem _ hgm)
    have hg0 : 0 ≤ g := hg g (by simp)
    simp only [ptsFromGaps, sorted_cons]
    refine ⟨fun b hb => ?_, ih hgtail _⟩
    obtain ⟨hx, hy⟩ := ptsFromGaps_mem hgtail b hb
    unfold pointLe
    omega

theorem ptsFromGaps_head (x0 y0 : ℤ) (gs : List ℤ) :
    ∃ t, ptsFromGaps x0 y0 gs = (x0, y0) :: t := by
  cases gs <;> exact ⟨_, rfl⟩

/-- The real values of an integer gap list. -/
def castGaps (gs : List ℤ) : List ℝ := gs.map (fun g : ℤ => (g : ℝ))

theorem castGaps_replicate (n : ℕ) (d : ℤ) :
    castGaps (List.replicate n d) = List.replicate n ((d : ℝ)) := by
  simp [castGaps]

theorem castGaps_append (gs hs : List ℤ) :
    castGaps (gs ++ hs) = castGaps gs ++ castGaps hs := by
  simp [castGaps]

theorem castGaps_length (gs : List ℤ) : (castGaps gs).length = gs.length := by
  simp [castGaps]

theorem castGaps_cons (g : ℤ) (gs : List ℤ) :
    castGaps (g :: gs) = ((g : ℝ)) :: castGaps gs := rfl

theorem consecutiveDistances_ptsFromGaps {gs : List ℤ} (hg : ∀ g ∈ gs, 0 ≤ g)
    (x0 y0 : ℤ) :
    consecutiveDistances (ptsFromGaps x0 y0 gs) = castGaps gs := by
  induction gs generalizing x0 with
  | nil => rfl
  | cons g gs ih =>
    have hgtail : ∀ g ∈ gs, 0 ≤ g := fun g hgm => hg g (mem_cons_of_mem _ hgm)
    have hg0 : 0 ≤ g := hg g (by simp)
    obtain ⟨t, ht⟩ := ptsFromGaps_head (x0 + g) y0 gs
    rw [castGaps_cons]
    simp only [ptsFromGaps]
    rw [ht]
    show distance_between_points ((x0, y0), (x0 + g, y0)) ::
      consecutiveDistances ((x0 + g, y0) :: t) = _
    rw [← ht, ih hgtail]
    congr 1
    exact dist_eval g hg0 (by ring)

theorem average_ptsFromGaps {gs : List ℤ} (hg : ∀ g ∈ gs, 0 ≤ g) (x0 y0 : ℤ) :
    average_distance_between_score_dots (ptsFromGaps x0 y0 gs) =
      (castGaps gs).sum / (gs.length : ℝ) := by
  unfold average_distance_between_score_dots
  rw [consecutiveDistances_ptsFromGaps hg, castGaps_length]

theorem find_score_ptsFromGaps {gs : List ℤ} (hg : ∀ g ∈ gs, 0 ≤ g) (x0 y0 : ℤ) :
    find_score (ptsFromGaps x0 y0 gs) =
      ((castGaps gs).takeWhile
        (fun g => decide (g ≤ (castGaps gs).sum / (gs.length : ℝ)))).length := by
  have hs := (ptsFromGaps_sorted hg x0 y0).insertionSort_eq
  simp only [find_score, hs]
  rw [score_walk_eq_takeWhile, consecutiveDistances_ptsFromGaps hg,
    average_ptsFromGaps hg]

theorem takeWhile_replicate_append {α : Type} (p : α → Bool) (a : α) (k : ℕ)
    (l : List α) (ha : p a = true) :
    (List.replicate k a ++ l).takeWhile p = List.replicate k a ++ l.takeWhile p := by
  induction k with
  | zero => simp
  | succ k ih => simp [replicate_succ, takeWhile_cons, ha, ih]

theorem find_score_replicate (x0 y0 d : ℤ) (n : ℕ) (hd : 0 ≤ d) :
    find_score (ptsFromGaps x0 y0 (List.replicate n d)) = n := by
  cases n with
  | zero => rfl
  | succ n =>
    have hg : ∀ g ∈ List.replicate (n + 1) d, 0 ≤ g := by
      intro g hgm
      rw [eq_of_mem_replicate hgm]
      exact hd
    rw [find_score_ptsFromGaps hg]
    rw [castGaps_replicate]
    have hlen : ((List.replicate (n + 1) d).length : ℝ) = ((n : ℝ) + 1) := by
      simp
    have hsum : (List.replicate (n + 1) ((d : ℝ))).sum = ((n : ℝ) + 1) * (d : ℝ) := by
      simp [sum_replicate, nsmul_eq_mul]
    rw [hlen, hsum]
    have havg : ((n : ℝ) + 1) * (d : ℝ) / ((n : ℝ) + 1) = (d : ℝ) := by
      have hne : ((n : ℝ) + 1) ≠ 0 := by positivity
      field_simp
    rw [havg]
    simp

theorem find_score_one_big_gap (x0 y0 d D : ℤ) (k : ℕ) (hd : 0 ≤ d) (hdD : d < D)
    (hk : k ≤ 10) :
    find_score (ptsFromGaps x0 y0
      (List.replicate k d ++ D :: List.replicate (10 - k) d)) = k := by
  have hg : ∀ g ∈ List.replicate k d ++ D :: List.replicate (10 - k) d, 0 ≤ g := by
    intro g hgm
    simp only [mem_append, mem_cons, mem_replicate] at hgm
    rcases hgm with ⟨-, rfl⟩ | rfl | ⟨-, rfl⟩ <;> omega
  rw [find_score_ptsFromGaps hg]
  have hlen : (List.replicate k d ++ D :: List.replicate (10 - k) d).length = 11 := by
    simp only [length_append, length_cons, length_replicate]
    omega
  have hsum : (castGaps (List.replicate k d ++ D :: List.replicate (10 - k) d)).sum
      = 10 * (d : ℝ) + (D : ℝ) := by
    rw [castGaps_append, castGaps_cons, castGaps_replicate, castGaps_replicate]
    simp only [sum_append, sum_cons, sum_replicate, nsmul_eq_mul]
    have hcast : (((10 - k : ℕ)) : ℝ) = 10 - (k : ℝ) := by
      push_cast [Nat.cast_sub hk]
      norm_num
    rw [hcast]
    ring
  have havg : (castGaps (List.replicate k d ++ D :: List.replicate (10 - k) d)).sum /
      (((List.replicate k d ++ D :: List.replicate (10 - k) d).length : ℕ) : ℝ)
      = (10 * (d : ℝ) + (D : ℝ)) / 11 := by
    rw [hsum, hlen]
    norm_num
  rw [havg]
  have hdR : (d : ℝ) < (D : ℝ) := by exact_mod_cast hdD
  have hdle : (fun g : ℝ => decide (g ≤ (10 * (d : ℝ) + (D : ℝ)) / 11)) ((d : ℝ)) = true := by
    simp only [decide_eq_true_eq]
    rw [le_div_iff₀ (by norm_num : (0 : ℝ) < 11)]
    linarith
  have hDf : decide ((D : ℝ) ≤ (10 * (d : ℝ) + (D : ℝ)) / 11) = false := by
    simp only [decide_eq_false_iff_not, not_le]
    rw [div_lt_iff₀ (by norm_num : (0 : ℝ) < 11)]
    linarith
  rw [castGaps_append, castGaps_cons, castGaps_replicate, castGaps_replicate]
  rw [takeWhile_replicate_append (fun g : ℝ => decide (g ≤ (10 * (d : ℝ) + (D : ℝ)) / 11))
    ((d : ℝ)) k (((D : ℝ)) :: List.replicate (10 - k) ((d : ℝ))) hdle]
  rw [takeWhile_cons, hDf]
  simp

/-! ## Evaluation of the pipeline on concrete component lists -/

theorem filter_keeps_area_eq (slices : List SlicePair) :
    slices.filter keeps_area = specSurvivors slices := by
  unfold specSurvivors
  apply filter_congr
  intro s _
  unfold keeps_area
  rw [← Bool.decide_or, ← decide_not, decide_eq_decide]
  omega

theorem L12_objects :
    (L12.filter keeps_area).map slice_center = ptsFromGaps 1 1 (List.replicate 11 8) := by
  decide

theorem fsfi_L12 : find_score_from_image L12 = Except.ok 11 := by
  simp only [find_score_from_image]
  rw [L12_objects]
  rw [if_neg (by decide)]
  rw [find_score_replicate 1 1 8 11 (by norm_num)]

theorem fsfi_L11 :
    find_score_from_image L11 = Except.error (ScoreError.invalidDotCount 11 12) := by
  have h : ((L11.filter keeps_area).map slice_center).length = 11 := by decide
  simp only [find_score_from_image, h]
  norm_num

theorem get_score_eq_ok {L R : List SlicePair} {sl sr : ℕ}
    (hL : find_score_from_image L = Except.ok sl)
    (hR : find_score_from_image R = Except.ok sr) :
    get_score L R = Except.ok ⟨10 - (sl : ℤ), (sr : ℤ)⟩ := by
  unfold get_score
  rw [hL, hR]

theorem get_score_ok_inv {L R : List SlicePair} {s : ScoreData}
    (h : get_score L R = Except.ok s) :
    ∃ sl sr, find_score_from_image L = Except.ok sl ∧
      find_score_from_image R = Except.ok sr ∧ s = ⟨10 - (sl : ℤ), (sr : ℤ)⟩ := by
  unfold get_score at h
  cases hL : find_score_from_image L with
  | error e =>
    rw [hL] at h
    cases h
  | ok sl =>
    rw [hL] at h
    cases hR : find_score_from_image R with
    | error e =>
      rw [hR] at h
      cases h
    | ok sr =>
      rw [hR] at h
      refine ⟨sl, sr, rfl, rfl, ?_⟩
      cases h
      rfl

theorem fsfi_ok_le {slices : List SlicePair} {v : ℕ}
    (h : find_score_from_image slices = Except.ok v) : v ≤ 11 := by
  simp only [find_score_from_image] at h
  by_cases hlen : ((slices.filter keeps_area).map slice_center).length ≠ 12
  · rw [if_pos hlen] at h
    cases h
  · rw [if_neg hlen] at h
    push_neg at hlen
    have hle := find_score_le ((slices.filter keeps_area).map slice_center)
    rw [hlen] at hle
    cases h
    omega

/-! ## Rounding-error bounds for the box derivation -/

theorem itrunc_sub_le (q : ℚ) : |(itrunc q : ℚ) - q| ≤ 1 := by
  unfold itrunc
  by_cases h : 0 ≤ q
  · rw [if_pos h]
    have h1 := Int.floor_le q
    have h2 := Int.sub_one_lt_floor q
    rw [abs_le]
    constructor <;> linarith
  · rw [if_neg h]
    have h1 := Int.le_ceil q
    have h2 := Int.ceil_lt_add_one q
    rw [abs_le]
    constructor <;> linarith

theorem middle1_err {k s s' e : ℤ} (hk : 0 ≤ k) (he : |s' - k * s| ≤ e) :
    |s' / 2 - k * (s / 2)| ≤ e + k + 1 := by
  have he0 : 0 ≤ e := le_trans (abs_nonneg _) he
  have hs := Int.ediv_add_emod s 2
  have hs' := Int.ediv_add_emod s' 2
  have hr0 : 0 ≤ s % 2 := Int.emod_nonneg s (by norm_num)
  have hr1 : s % 2 < 2 := Int.emod_lt_of_pos s (by norm_num)
  have hr0' : 0 ≤ s' % 2 := Int.emod_nonneg s' (by norm_num)
  have hr1' : s' % 2 < 2 := Int.emod_lt_of_pos s' (by norm_num)
  have hkr : k * (s % 2) ≤ k * 1 := mul_le_mul_of_nonneg_left (by omega) hk
  have hkr0 : 0 ≤ k * (s % 2) := mul_nonneg hk hr0
  have hks : k * s = 2 * (k * (s / 2)) + k * (s % 2) := by
    calc k * s = k * (2 * (s / 2) + s % 2) := by rw [hs]
    _ = 2 * (k * (s / 2)) + k * (s % 2) := by ring
  rw [abs_le] at he ⊢
  constructor <;> linarith

theorem approxPt_mono {k : ℤ} {p' p : Pt} {e e' : ℤ} (h : approxPt k p' p e)
    (hle : e ≤ e') : approxPt k p' p e' :=
  ⟨h.1.trans hle, h.2.trans hle⟩

theorem approxPt_self (k : ℤ) (p : Pt) : approxPt k (scalePt k p) p 0 := by
  constructor <;> simp [scalePt]

theorem middle_point_approx {k : ℤ} (hk : 0 ≤ k) {p' p q' q : Pt} {ep eq : ℤ}
    (hp : approxPt k p' p ep) (hq : approxPt k q' q eq) :
    approxPt k (middle_point p' q') (middle_point p q) (ep + eq + k + 1) := by
  obtain ⟨hp1, hp2⟩ := hp
  obtain ⟨hq1, hq2⟩ := hq
  constructor
  · show |(p'.1 + q'.1) / 2 - k * ((p.1 + q.1) / 2)| ≤ ep + eq + k + 1
    apply middle1_err hk
    calc |(p'.1 + q'.1) - k * (p.1 + q.1)|
        = |(p'.1 - k * p.1) + (q'.1 - k * q.1)| := by ring_nf
      _ ≤ |p'.1 - k * p.1| + |q'.1 - k * q.1| := abs_add _ _
      _ ≤ ep + eq := add_le_add hp1 hq1
  · show |(p'.2 + q'.2) / 2 - k * ((p.2 + q.2) / 2)| ≤ ep + eq + k + 1
    apply middle1_err hk
    calc |(p'.2 + q'.2) - k * (p.2 + q.2)|
        = |(p'.2 - k * p.2) + (q'.2 - k * q.2)| := by ring_nf
      _ ≤ |p'.2 - k * p.2| + |q'.2 - k * q.2| := abs_add _ _
      _ ≤ ep + eq := add_le_add hp2 hq2

theorem itrunc_scale_err {p : ℚ} (hp0 : 0 ≤ p) (hp1 : p ≤ 1) {k x x' e : ℤ}
    (hk : 0 ≤ k) (he : |x' - k * x| ≤ e) :
    |itrunc ((x' : ℚ) * p) - k * itrunc ((x : ℚ) * p)| ≤ e + k + 1 := by
  have he0 : 0 ≤ e := le_trans (abs_nonneg _) he
  have h1 : |(itrunc ((x' : ℚ) * p) : ℚ) - (x' : ℚ) * p| ≤ 1 := itrunc_sub_le _
  have h2 : |(itrunc ((x : ℚ) * p) : ℚ) - (x : ℚ) * p| ≤ 1 := itrunc_sub_le _
  have h3 : |(x' : ℚ) * p - (k : ℚ) * ((x : ℚ) * p)| ≤ (e : ℚ) := by
    have hrw : (x' : ℚ) * p - (k : ℚ) * ((x : ℚ) * p) = ((x' - k * x : ℤ) : ℚ) * p := by
      push_cast
      ring
    rw [hrw, abs_mul]
    have hcast : |((x' - k * x : ℤ) : ℚ)| ≤ (e : ℚ) := by
      rw [← Int.cast_abs]
      exact_mod_cast he
    have hpabs : |p| ≤ 1 := by rwa [abs_of_nonneg hp0]
    calc |((x' - k * x : ℤ) : ℚ)| * |p| ≤ (e : ℚ) * 1 :=
        mul_le_mul hcast hpabs (abs_nonneg _) (by exact_mod_cast he0)
      _ = (e : ℚ) := mul_one _
  have hkQ : (0 : ℚ) ≤ (k : ℚ) := by exact_mod_cast hk
  have h4 : |(k : ℚ) * ((x : ℚ) * p) - (k : ℚ) * (itrunc ((x : ℚ) * p) : ℚ)| ≤ (k : ℚ) := by
    rw [← mul_sub, abs_mul, abs_of_nonneg hkQ]
    calc (k : ℚ) * |(x : ℚ) * p - (itrunc ((x : ℚ) * p) : ℚ)| ≤ (k : ℚ) * 1 := by
          apply mul_le_mul_of_nonneg_left _ hkQ
          rw [abs_sub_comm]
          exact h2
      _ = (k : ℚ) := mul_one _
  have hQ : |(itrunc ((x' : ℚ) * p) : ℚ) - (k : ℚ) * (itrunc ((x : ℚ) * p) : ℚ)|
      ≤ (e : ℚ) + (k : ℚ) + 1 := by
    have htri : (itrunc ((x' : ℚ) * p) : ℚ) - (k : ℚ) * (itrunc ((x : ℚ) * p) : ℚ)
        = ((itrunc ((x' : ℚ) * p) : ℚ) - (x' : ℚ) * p)
          + ((x' : ℚ) * p - (k : ℚ) * ((x : ℚ) * p))
          + ((k : ℚ) * ((x : ℚ) * p) - (k : ℚ) * (itrunc ((x : ℚ) * p) : ℚ)) := by
      ring
    rw [htri]
    calc |_ + _ + _| ≤ |(itrunc ((x' : ℚ) * p) : ℚ) - (x' : ℚ) * p|
          + |(x' : ℚ) * p - (k : ℚ) * ((x : ℚ) * p)|
          + |(k : ℚ) * ((x : ℚ) * p) - (k : ℚ) * (itrunc ((x : ℚ) * p) : ℚ)| :=
        abs_add_three _ _ _
      _ ≤ 1 + (e : ℚ) + (k : ℚ) := by
        apply add_le_add (add_le_add h1 h3) h4
      _ = (e : ℚ) + (k : ℚ) + 1 := by ring
  have : ((|itrunc ((x' : ℚ) * p) - k * itrunc ((x : ℚ) * p)| : ℤ) : ℚ)
      ≤ ((e + k + 1 : ℤ) : ℚ) := by
    push_cast
    exact hQ
  exact_mod_cast this

theorem ccadd_approx {k : ℤ} (hk : 0 ≤ k) {p : ℚ} (hp0 : 0 ≤ p) (hp1 : p ≤ 1)
    {m1' m1 m2' m2 : Pt} {e1 e2 : ℤ}
    (h1 : approxPt k m1' m1 e1) (h2 : approxPt k m2' m2 e2) :
    approxPt k (calculate_coordinate_addition m1' m2' p)
      (calculate_coordinate_addition m1 m2 p) (e1 + e2 + k + 1) := by
  have harg1 : |(m2'.1 - m1'.1) - k * (m2.1 - m1.1)| ≤ e1 + e2 := by
    calc |(m2'.1 - m1'.1) - k * (m2.1 - m1.1)|
        = |(m2'.1 - k * m2.1) + -(m1'.1 - k * m1.1)| := by ring_nf
      _ ≤ |m2'.1 - k * m2.1| + |-(m1'.1 - k * m1.1)| := abs_add _ _
      _ = |m2'.1 - k * m2.1| + |m1'.1 - k * m1.1| := by rw [abs_neg]
      _ ≤ e2 + e1 := add_le_add h2.1 h1.1
      _ = e1 + e2 := by ring
  have harg2 : |(m2'.2 - m1'.2) - k * (m2.2 - m1.2)| ≤ e1 + e2 := by
    calc |(m2'.2 - m1'.2) - k * (m2.2 - m1.2)|
        = |(m2'.2 - k * m2.2) + -(m1'.2 - k * m1.2)| := by ring_nf
      _ ≤ |m2'.2 - k * m2.2| + |-(m1'.2 - k * m1.2)| := abs_add _ _
      _ = |m2'.2 - k * m2.2| + |m1'.2 - k * m1.2| := by rw [abs_neg]
      _ ≤ e2 + e1 := add_le_add h2.2 h1.2
      _ = e1 + e2 := by ring
  constructor
  · exact itrunc_scale_err hp0 hp1 hk harg1
  · exact itrunc_scale_err hp0 hp1 hk harg2

theorem addPt_approx {k : ℤ} {p' p q' q : Pt} {e1 e2 : ℤ}
    (h1 : approxPt k p' p e1) (h2 : approxPt k q' q e2) :
    approxPt k (addPt p' q') (addPt p q) (e1 + e2) := by
  constructor
  · show |(p'.1 + q'.1) - k * (p.1 + q.1)| ≤ e1 + e2
    calc |(p'.1 + q'.1) - k * (p.1 + q.1)|
        = |(p'.1 - k * p.1) + (q'.1 - k * q.1)| := by ring_nf
      _ ≤ |p'.1 - k * p.1| + |q'.1 - k * q.1| := abs_add _ _
      _ ≤ e1 + e2 := add_le_add h1.1 h2.1
  · show |(p'.2 + q'.2) - k * (p.2 + q.2)| ≤ e1 + e2
    calc |(p'.2 + q'.2) - k * (p.2 + q.2)|
        = |(p'.2 - k * p.2) + (q'.2 - k * q.2)| := by ring_nf
      _ ≤ |p'.2 - k * p.2| + |q'.2 - k * q.2| := abs_add _ _
      _ ≤ e1 + e2 := add_le_add h1.2 h2.2

/-- Scaling a table end componentwise. -/
def scaleEdge (k : ℤ) (e : Pt × Pt) : Pt × Pt := (scalePt k e.1, scalePt k e.2)

theorem table_end_middles_approx {k : ℤ} (hk : 0 ≤ k) (e : Pt × Pt) :
    approxPt k (table_end_middles (scaleEdge k e)).1 (table_end_middles e).1 (k + 1) ∧
    approxPt k (table_end_middles (scaleEdge k e)).2.1 (table_end_middles e).2.1 (6 * k + 6) ∧
    approxPt k (table_end_middles (scaleEdge k e)).2.2 (table_end_middles e).2.2 (6 * k + 6) := by
  have hmarg0 : (0 : ℚ) ≤ SCORE_TO_MIDDLE_MARGIN := by norm_num [SCORE_TO_MIDDLE_MARGIN]
  have hmarg1 : SCORE_TO_MIDDLE_MARGIN ≤ 1 := by norm_num [SCORE_TO_MIDDLE_MARGIN]
  have hm : approxPt k (middle_point (scalePt k e.1) (scalePt k e.2))
      (middle_point e.1 e.2) (k + 1) := by
    have := middle_point_approx hk (approxPt_self k e.1) (approxPt_self k e.2)
    exact approxPt_mono this (by omega)
  have hma0 : approxPt k
      (middle_point (scalePt k e.1) (middle_point (scalePt k e.1) (scalePt k e.2)))
      (middle_point e.1 (middle_point e.1 e.2)) (2 * k + 2) := by
    have := middle_point_approx hk (approxPt_self k e.1) hm
    exact approxPt_mono this (by omega)
  have hmb0 : approxPt k
      (middle_point (scalePt k e.2) (middle_point (scalePt k e.1) (scalePt k e.2)))
      (middle_point e.2 (middle_point e.1 e.2)) (2 * k + 2) := by
    have := middle_point_approx hk (approxPt_self k e.2) hm
    exact approxPt_mono this (by omega)
  have hadd1 : approxPt k
      (calculate_coordinate_addition
        (middle_point (scalePt k e.1) (middle_point (scalePt k e.1) (scalePt k e.2)))
        (middle_point (scalePt k e.1) (scalePt k e.2)) SCORE_TO_MIDDLE_MARGIN)
      (calculate_coordinate_addition (middle_point e.1 (middle_point e.1 e.2))
        (middle_point e.1 e.2) SCORE_TO_MIDDLE_MARGIN) (4 * k + 4) := by
    have := ccadd_approx hk hmarg0 hmarg1 hma0 hm
    exact approxPt_mono this (by omega)
  have hadd2 : approxPt k
      (calculate_coordinate_addition
        (middle_point (scalePt k e.2) (middle_point (scalePt k e.1) (scalePt k e.2)))
        (middle_point (scalePt k e.1) (scalePt k e.2)) SCORE_TO_MIDDLE_MARGIN)
      (calculate_coordinate_addition (middle_point e.2 (middle_point e.1 e.2))
        (middle_point e.1 e.2) SCORE_TO_MIDDLE_MARGIN) (4 * k + 4) := by
    have := ccadd_approx hk hmarg0 hmarg1 hmb0 hm
    exact approxPt_mono this (by omega)
  refine ⟨?_, ?_, ?_⟩
  · exact hm
  · have := addPt_approx hma0 hadd1
    exact approxPt_mono this (by omega)
  · have := addPt_approx hmb0 hadd2
    exact approxPt_mono this (by omega)

/-! ## Scale commutation of the table-end selection -/

theorem dist_scaleEdge {k : ℤ} (hk : 0 ≤ k) (e : Pt × Pt) :
    distance_between_points (scaleEdge k e) = (k : ℝ) * distance_between_points e := by
  simp only [distance_between_points, scaleEdge, scalePt]
  have hrw : (((k * e.2.1 - k * e.1.1 : ℤ)) : ℝ) ^ 2 + (((k * e.2.2 - k * e.1.2 : ℤ)) : ℝ) ^ 2
      = (k : ℝ) ^ 2 * ((((e.2.1 - e.1.1 : ℤ)) : ℝ) ^ 2 + (((e.2.2 - e.1.2 : ℤ)) : ℝ) ^ 2) := by
    push_cast
    ring
  rw [hrw, Real.sqrt_mul (by positivity) _, Real.sqrt_sq (by exact_mod_cast hk)]

theorem distLe_scaleEdge_iff {k : ℤ} (hk : 0 < k) (a b : Pt × Pt) :
    distLe a b ↔ distLe (scaleEdge k a) (scaleEdge k b) := by
  unfold distLe
  rw [dist_scaleEdge (le_of_lt hk), dist_scaleEdge (le_of_lt hk)]
  have hkR : (0 : ℝ) < (k : ℝ) := by exact_mod_cast hk
  constructor
  · intro h
    exact mul_le_mul_of_nonneg_left h (le_of_lt hkR)
  · intro h
    exact le_of_mul_le_mul_left h hkR

theorem scalePt_lt_iff {k : ℤ} (hk : 0 < k) (a b : Pt) :
    pointLt (scalePt k a) (scalePt k b) ↔ pointLt a b := by
  unfold pointLt scalePt
  rw [mul_lt_mul_left hk, mul_lt_mul_left hk, mul_right_inj' (ne_of_gt hk)]

theorem scalePt_le_iff {k : ℤ} (hk : 0 < k) (a b : Pt) :
    pointLe (scalePt k a) (scalePt k b) ↔ pointLe a b := by
  unfold pointLe scalePt
  rw [mul_lt_mul_left hk, mul_le_mul_left hk, mul_right_inj' (ne_of_gt hk)]

theorem scalePt_eq_iff {k : ℤ} (hk : 0 < k) (a b : Pt) :
    scalePt k a = scalePt k b ↔ a = b := by
  unfold scalePt
  rw [Prod.ext_iff, Prod.ext_iff]
  rw [mul_right_inj' (ne_of_gt hk), mul_right_inj' (ne_of_gt hk)]

theorem pairLe_scaleEdge_iff {k : ℤ} (hk : 0 < k) (a b : Pt × Pt) :
    pairLe a b ↔ pairLe (scaleEdge k a) (scaleEdge k b) := by
  show _ ↔ pairLe (scalePt k a.1, scalePt k a.2) (scalePt k b.1, scalePt k b.2)
  unfold pairLe
  rw [scalePt_lt_iff hk, scalePt_eq_iff hk, scalePt_le_iff hk]

theorem combinations2_map {α β : Type} (f : α → β) (l : List α) :
    combinations2 (l.map f) = (combinations2 l).map (fun pr => (f pr.1, f pr.2)) := by
  induction l with
  | nil => rfl
  | cons x xs ih =>
    simp only [map_cons, combinations2, map_append, ih, map_map]
    rfl

theorem find_table_ends_scale {k : ℤ} (hk : 0 < k) (points : List Pt) :
    find_table_ends (points.map (scalePt k)) = (find_table_ends points).map (scaleEdge k) := by
  unfold find_table_ends
  rw [combinations2_map (scalePt k) points]
  rw [show (fun pr : Pt × Pt => (scalePt k pr.1, scalePt k pr.2)) = scaleEdge k from rfl]
  have h1 : (insertionSort distLe (combinations2 points)).map (scaleEdge k)
      = insertionSort distLe ((combinations2 points).map (scaleEdge k)) :=
    map_insertionSort distLe distLe (scaleEdge k) _
      (fun a _ b _ => distLe_scaleEdge_iff hk a b)
  rw [← h1, ← map_take]
  exact (map_insertionSort pairLe pairLe (scaleEdge k) _
    (fun a _ b _ => pairLe_scaleEdge_iff hk a b)).symm

theorem combinations2_four {α : Type} (a b c d : α) :
    combinations2 [a, b, c, d] = [(a, b), (a, c), (a, d), (b, c), (b, d), (c, d)] := rfl

theorem find_table_ends_length_four (c0 c1 c2 c3 : Pt) :
    (find_table_ends [c0, c1, c2, c3]).length = 2 := by
  unfold find_table_ends
  rw [length_insertionSort, length_take, length_insertionSort, combinations2_four]
  rfl

theorem list_len2 {α : Type} {l : List α} (h : l.length = 2) : ∃ a b, l = [a, b] := by
  rcases l with _ | ⟨a, _ | ⟨b, _ | ⟨c, t⟩⟩⟩
  · simp at h
  · simp at h
  · exact ⟨a, b, rfl⟩
  · simp at h

theorem list_len4 {α : Type} {l : List α} (h : l.length = 4) :
    ∃ a b c d, l = [a, b, c, d] := by
  rcases l with _ | ⟨a, _ | ⟨b, _ | ⟨c, _ | ⟨d, _ | ⟨e, t⟩⟩⟩⟩⟩
  · simp at h
  · simp at h
  · simp at h
  · simp at h
  · exact ⟨a, b, c, d, rfl⟩
  · simp at h

theorem list_len6 {α : Type} {l : List α} (h : l.length = 6) :
    ∃ a b c d e f, l = [a, b, c, d, e, f] := by
  rcases l with _ | ⟨a, _ | ⟨b, _ | ⟨c, _ | ⟨d, _ | ⟨e, _ | ⟨f, _ | ⟨g, t⟩⟩⟩⟩⟩⟩⟩
  · simp at h
  · simp at h
  · simp at h
  · simp at h
  · simp at h
  · simp at h
  · exact ⟨a, b, c, d, e, f, rfl⟩
  · simp at h

theorem find_score_boxes_scale_approx {k : ℤ} (hk : 1 ≤ k) (c0 c1 c2 c3 : Pt) :
    approxBox k
      (find_score_boxes [scalePt k c0, scalePt k c1, scalePt k c2, scalePt k c3]).1
      (find_score_boxes [c0, c1, c2, c3]).1 (24 * k) ∧
    approxBox k
      (find_score_boxes [scalePt k c0, scalePt k c1, scalePt k c2, scalePt k c3]).2
      (find_score_boxes [c0, c1, c2, c3]).2 (24 * k) := by
  have hk0 : (0 : ℤ) ≤ k := by omega
  have hkpos : (0 : ℤ) < k := by omega
  obtain ⟨e1, e2, hE⟩ := list_len2 (find_table_ends_length_four c0 c1 c2 c3)
  have hscaled : find_table_ends [scalePt k c0, scalePt k c1, scalePt k c2, scalePt k c3]
      = [scaleEdge k e1, scaleEdge k e2] := by
    rw [show [scalePt k c0, scalePt k c1, scalePt k c2, scalePt k c3]
        = [c0, c1, c2, c3].map (scalePt k) from rfl]
    rw [find_table_ends_scale hkpos, hE]
    rfl
  have hin0 : (0 : ℚ) ≤ SCORE_INNER_MARGIN := by norm_num [SCORE_INNER_MARGIN]
  have hin1 : SCORE_INNER_MARGIN ≤ 1 := by norm_num [SCORE_INNER_MARGIN]
  have hbl0 : (0 : ℚ) ≤ SCORE_BLOCK_LENGTH := by norm_num [SCORE_BLOCK_LENGTH]
  have hbl1 : SCORE_BLOCK_LENGTH ≤ 1 := by norm_num [SCORE_BLOCK_LENGTH]
  obtain ⟨hm1, hma1, hmb1⟩ := table_end_middles_approx hk0 e1
  obtain ⟨hm2, hma2, hmb2⟩ := table_end_middles_approx hk0 e2
  have hadd1 : approxPt k
      (calculate_coordinate_addition (table_end_middles (scaleEdge k e1)).1
        (table_end_middles (scaleEdge k e2)).1 SCORE_INNER_MARGIN)
      (calculate_coordinate_addition (table_end_middles e1).1
        (table_end_middles e2).1 SCORE_INNER_MARGIN) (3 * k + 3) :=
    approxPt_mono (ccadd_approx hk0 hin0 hin1 hm1 hm2) (by omega)
  have hadd2 : approxPt k
      (calculate_coordinate_addition (table_end_middles (scaleEdge k e2)).1
        (table_end_middles (scaleEdge k e1)).1 SCORE_INNER_MARGIN)
      (calculate_coordinate_addition (table_end_middles e2).1
        (table_end_middles e1).1 SCORE_INNER_MARGIN) (3 * k + 3) :=
    approxPt_mono (ccadd_approx hk0 hin0 hin1 hm2 hm1) (by omega)
  have haddl1 : approxPt k
      (calculate_coordinate_addition (table_end_middles (scaleEdge k e1)).1
        (table_end_middles (scaleEdge k e2)).1 SCORE_BLOCK_LENGTH)
      (calculate_coordinate_addition (table_end_middles e1).1
        (table_end_middles e2).1 SCORE_BLOCK_LENGTH) (3 * k + 3) :=
    approxPt_mono (ccadd_approx hk0 hbl0 hbl1 hm1 hm2) (by omega)
  have haddl2 : approxPt k
      (calculate_coordinate_addition (table_end_middles (scaleEdge k e2)).1
        (table_end_middles (scaleEdge k e1)).1 SCORE_BLOCK_LENGTH)
      (calculate_coordinate_addition (table_end_middles e2).1
        (table_end_middles e1).1 SCORE_BLOCK_LENGTH) (3 * k + 3) :=
    approxPt_mono (ccadd_approx hk0 hbl0 hbl1 hm2 hm1) (by omega)
  have hb1A : approxPt k
      (addPt (table_end_middles (scaleEdge k e1)).2.1
        (calculate_coordinate_addition (table_end_middles (scaleEdge k e1)).1
          (table_end_middles (scaleEdge k e2)).1 SCORE_INNER_MARGIN))
      (addPt (table_end_middles e1).2.1
        (calculate_coordinate_addition (table_end_middles e1).1
          (table_end_middles e2).1 SCORE_INNER_MARGIN)) (24 * k) :=
    approxPt_mono (addPt_approx hma1 hadd1) (by omega)
  have hb1B : approxPt k
      (addPt (table_end_middles (scaleEdge k e1)).2.2
        (calculate_coordinate_addition (table_end_middles (scaleEdge k e1)).1
          (table_end_middles (scaleEdge k e2)).1 SCORE_INNER_MARGIN))
      (addPt (table_end_middles e1).2.2
        (calculate_coordinate_addition (table_end_middles e1).1
          (table_end_middles e2).1 SCORE_INNER_MARGIN)) (24 * k) :=
    approxPt_mono (addPt_approx hmb1 hadd1) (by omega)
  have hb1C : approxPt k
      (addPt (addPt (table_end_middles (scaleEdge k e1)).2.1
        (calculate_coordinate_addition (table_end_middles (scaleEdge k e1)).1
          (table_end_middles (scaleEdge k e2)).1 SCORE_INNER_MARGIN))
        (calculate_coordinate_addition (table_end_middles (scaleEdge k e1)).1
          (table_end_middles (scaleEdge k e2)).1 SCORE_BLOCK_LENGTH))
      (addPt (addPt (table_end_middles e1).2.1
        (calculate_coordinate_addition (table_end_middles e1).1
          (table_end_middles e2).1 SCORE_INNER_MARGIN))
        (calculate_coordinate_addition (table_end_middles e1).1
          (table_end_middles e2).1 SCORE_BLOCK_LENGTH)) (24 * k) :=
    approxPt_mono (addPt_approx (addPt_approx hma1 hadd1) haddl1) (by omega)
  have hb1D : approxPt k
      (addPt (addPt (table_end_middles (scaleEdge k e1)).2.2
        (calculate_coordinate_addition (table_end_middles (scaleEdge k e1)).1
          (table_end_middles (scaleEdge k e2)).1 SCORE_INNER_MARGIN))
        (calculate_coordinate_addition (table_end_middles (scaleEdge k e1)).1
          (table_end_middles (scaleEdge k e2)).1 SCORE_BLOCK_LENGTH))
      (addPt (addPt (table_end_middles e1).2.2
        (calculate_coordinate_addition (table_end_middles e1).1
          (table_end_middles e2).1 SCORE_INNER_MARGIN))
        (calculate_coordinate_addition (table_end_middles e1).1
          (table_end_middles e2).1 SCORE_BLOCK_LENGTH)) (24 * k) :=
    approxPt_mono (addPt_approx (addPt_approx hmb1 hadd1) haddl1) (by omega)
  have hb2A : approxPt k
      (addPt (table_end_middles (scaleEdge k e2)).2.1
        (calculate_coordinate_addition (table_end_middles (scaleEdge k e2)).1
          (table_end_middles (scaleEdge k e1)).1 SCORE_INNER_MARGIN))
      (addPt (table_end_middles e2).2.1
        (calculate_coordinate_addition (table_end_middles e2).1
          (table_end_middles e1).1 SCORE_INNER_MARGIN)) (24 * k) :=
    approxPt_mono (addPt_approx hma2 hadd2) (by omega)
  have hb2B : approxPt k
      (addPt (table_end_middles (scaleEdge k e2)).2.2
        (calculate_coordinate_addition (table_end_middles (scaleEdge k e2)).1
          (table_end_middles (scaleEdge k e1)).1 SCORE_INNER_MARGIN))
      (addPt (table_end_middles e2).2.2
        (calculate_coordinate_addition (table_end_middles e2).1
          (table_end_middles e1).1 SCORE_INNER_MARGIN)) (24 * k) :=
    approxPt_mono (addPt_approx hmb2 hadd2) (by omega)
  have hb2C : approxPt k
      (addPt (addPt (table_end_middles (scaleEdge k e2)).2.1
        (calculate_coordinate_addition (table_end_middles (scaleEdge k e2)).1
          (table_end_middles (scaleEdge k e1)).1 SCORE_INNER_MARGIN))
        (calculate_coordinate_addition (table_end_middles (scaleEdge k e2)).1
          (table_end_middles (scaleEdge k e1)).1 SCORE_BLOCK_LENGTH))
      (addPt (addPt (table_end_middles e2).2.1
        (calculate_coordinate_addition (table_end_middles e2).1
          (table_end_middles e1).1 SCORE_INNER_MARGIN))
        (calculate_coordinate_addition (table_end_middles e2).1
          (table_end_middles e1).1 SCORE_BLOCK_LENGTH)) (24 * k) :=
    approxPt_mono (addPt_approx (addPt_approx hma2 hadd2) haddl2) (by omega)
  have hb2D : approxPt k
      (addPt (addPt (table_end_middles (scaleEdge k e2)).2.2
        (calculate_coordinate_addition (table_end_middles (scaleEdge k e2)).1
          (table_end_middles (scaleEdge k e1)).1 SCORE_INNER_MARGIN))
        (calculate_coordinate_addition (table_end_middles (scaleEdge k e2)).1
          (table_end_middles (scaleEdge k e1)).1 SCORE_BLOCK_LENGTH))
      (addPt (addPt (table_end_middles e2).2.2
        (calculate_coordinate_addition (table_end_middles e2).1
          (table_end_middles e1).1 SCORE_INNER_MARGIN))
        (calculate_coordinate_addition (table_end_middles e2).1
          (table_end_middles e1).1 SCORE_BLOCK_LENGTH)) (24 * k) :=
    approxPt_mono (addPt_approx (addPt_approx hmb2 hadd2) haddl2) (by omega)
  simp only [find_score_boxes]
  rw [hscaled, hE]
  have hg0s : [scaleEdge k e1, scaleEdge k e2].getD 0 ((0, 0), (0, 0)) = scaleEdge k e1 := rfl
  have hg1s : [scaleEdge k e1, scaleEdge k e2].getD 1 ((0, 0), (0, 0)) = scaleEdge k e2 := rfl
  have hg0 : [e1, e2].getD 0 ((0, 0), (0, 0)) = e1 := rfl
  have hg1 : [e1, e2].getD 1 ((0, 0), (0, 0)) = e2 := rfl
  rw [hg0s, hg1s, hg0, hg1]
  simp only [calculate_score_box, approxBox]
  exact ⟨⟨hb1B, hb1A, hb1C, hb1D⟩, ⟨hb2B, hb2A, hb2C, hb2D⟩⟩

/-! ## Cropping degenerate boxes -/

theorem pySlice_same {α : Type} (l : List α) (a : ℤ) : pySlice l a a = [] := by
  unfold pySlice
  apply drop_eq_nil_of_le
  calc (l.take (pySliceIdx a l.length)).length ≤ pySliceIdx a l.length :=
      length_take_le _ _
    _ ≤ pySliceIdx a l.length := le_refl _

theorem cvTranspose_empty_rows {α : Type} (m : List (List α)) (h : ∀ r ∈ m, r = []) :
    cvTranspose m = [] := by
  cases m with
  | nil => rfl
  | cons r0 rest =>
    have h0 : r0 = [] := h r0 (by simp)
    simp [cvTranspose, h0]

theorem crop_box_degenerate {α : Type} (image : List (List α)) (box : List Pt)
    (h : (find_crop_corners box).1.1 = (find_crop_corners box).2.1 ∨
         (find_crop_corners box).1.2 = (find_crop_corners box).2.2) :
    crop_box image box = [] := by
  simp only [crop_box]
  rcases h with h | h
  · have hrows : ∀ r ∈ (pySlice image (find_crop_corners box).1.2
        (find_crop_corners box).2.2).map
        (fun row => pySlice row (find_crop_corners box).1.1 (find_crop_corners box).2.1),
        r = [] := by
      intro r hr
      simp only [mem_map] at hr
      obtain ⟨row, -, hrw⟩ := hr
      rw [← hrw, ← h]
      exact pySlice_same _ _
    rw [cvTranspose_empty_rows _ hrows]
    rfl
  · rw [← h, pySlice_same]
    rfl

/-! ## A concrete table-end computation

Four corners `(0,0), (1,0), (0,5), (0,-5)` whose six pairwise distances
`1, 5, 5, sqrt 26, sqrt 26, 10` happen to appear already ascending in
combination order, so the stable sort by distance keeps them in place. -/

theorem sqrt26_ge_5 : (5 : ℝ) ≤ Real.sqrt 26 := by
  have h25 : Real.sqrt 25 = 5 := by
    rw [show (25 : ℝ) = 5 ^ 2 by norm_num, Real.sqrt_sq (by norm_num)]
  rw [← h25]
  exact Real.sqrt_le_sqrt (by norm_num)

theorem sqrt26_le_10 : Real.sqrt 26 ≤ 10 := by
  have h100 : Real.sqrt 100 = 10 := by
    rw [show (100 : ℝ) = 10 ^ 2 by norm_num, Real.sqrt_sq (by norm_num)]
  rw [← h100]
  exact Real.sqrt_le_sqrt (by norm_num)

theorem find_table_ends_cross :
    find_table_ends [((0 : ℤ), (0 : ℤ)), ((1 : ℤ), (0 : ℤ)), ((0 : ℤ), (5 : ℤ)),
      ((0 : ℤ), (-5 : ℤ))] =
    [(((0 : ℤ), (0 : ℤ)), ((0 : ℤ), (5 : ℤ))), (((0 : ℤ), (0 : ℤ)), ((1 : ℤ), (0 : ℤ)))] := by
  have dA : distance_between_points (((0 : ℤ), (0 : ℤ)), ((1 : ℤ), (0 : ℤ))) = 1 := by
    simpa using dist_eval (a := 0) (b := 0) (c := 1) (d := 0) 1 (by norm_num) (by norm_num)
  have dB : distance_between_points (((0 : ℤ), (0 : ℤ)), ((0 : ℤ), (5 : ℤ))) = 5 := by
    simpa using dist_eval (a := 0) (b := 0) (c := 0) (d := 5) 5 (by norm_num) (by norm_num)
  have dC : distance_between_points (((0 : ℤ), (0 : ℤ)), ((0 : ℤ), (-5 : ℤ))) = 5 := by
    simpa using dist_eval (a := 0) (b := 0) (c := 0) (d := -5) 5 (by norm_num) (by norm_num)
  have dD : distance_between_points (((1 : ℤ), (0 : ℤ)), ((0 : ℤ), (5 : ℤ)))
      = Real.sqrt 26 := by
    unfold distance_between_points
    norm_num
  have dE : distance_between_points (((1 : ℤ), (0 : ℤ)), ((0 : ℤ), (-5 : ℤ)))
      = Real.sqrt 26 := by
    unfold distance_between_points
    norm_num
  have dF : distance_between_points (((0 : ℤ), (5 : ℤ)), ((0 : ℤ), (-5 : ℤ))) = 10 := by
    simpa using dist_eval (a := 0) (b := 5) (c := 0) (d := -5) 10 (by norm_num) (by norm_num)
  unfold find_table_ends
  rw [combinations2_four]
  have hsorted : Sorted distLe
      [(((0 : ℤ), (0 : ℤ)), ((1 : ℤ), (0 : ℤ))), (((0 : ℤ), (0 : ℤ)), ((0 : ℤ), (5 : ℤ))),
       (((0 : ℤ), (0 : ℤ)), ((0 : ℤ), (-5 : ℤ))), (((1 : ℤ), (0 : ℤ)), ((0 : ℤ), (5 : ℤ))),
       (((1 : ℤ), (0 : ℤ)), ((0 : ℤ), (-5 : ℤ))), (((0 : ℤ), (5 : ℤ)), ((0 : ℤ), (-5 : ℤ)))] := by
    simp only [sorted_cons, mem_cons, mem_singleton, forall_eq_or_imp, forall_eq,
      sorted_nil, and_true, not_mem_nil, false_implies, implies_true]
    unfold distLe
    rw [dA, dB, dC, dD, dE, dF]
    have h1 := sqrt26_ge_5
    have h2 := sqrt26_le_10
    refine ⟨⟨?_, ?_, ?_, ?_, ?_⟩, ⟨?_, ?_, ?_, ?_⟩, ⟨?_, ?_, ?_⟩, ⟨?_, ?_⟩, ?_⟩ <;> linarith
  rw [hsorted.insertionSort_eq]
  rfl

theorem score_walk_full (avg : ℝ) (l : List Pt)
    (h : ∀ g ∈ consecutiveDistances l, g ≤ avg) : score_walk avg l = l.length - 1 := by
  induction l with
  | nil => simp [score_walk]
  | cons p tail ih =>
    cases tail with
    | nil => simp [score_walk]
    | cons q rest =>
      simp only [score_walk, length_cons]
      have hg : distance_between_points (p, q) ≤ avg :=
        h _ (by simp [consecutiveDistances])
      rw [if_neg (not_lt.mpr hg)]
      have htail : ∀ g ∈ consecutiveDistances (q :: rest), g ≤ avg := by
        intro g hgm
        exact h g (by simp [consecutiveDistances, hgm])
      have := ih htail
      simp only [length_cons] at this
      omega

theorem get_score_L12 : get_score L12 L12 = Except.ok ⟨-1, 11⟩ := by
  rw [get_score_eq_ok fsfi_L12 fsfi_L12]
  norm_num

/-! ## The claims -/

/-- C1, counterexample.  The claim that both scores always lie in
`[0, 10]` is false: on a region whose 12 surviving dots are evenly
spaced, all 11 consecutive gaps equal the average, the scoring walk
never stops, and the raw count is 11; the pipeline then completes with
`rightScore = 11 > 10` and `leftScore = 10 - 11 = -1 < 0`. -/
theorem C1_counterexample :
    get_score L12 L12 = Except.ok ⟨-1, 11⟩ ∧ ((-1 : ℤ) < 0 ∧ 10 < (11 : ℤ)) :=
  ⟨get_score_L12, by norm_num⟩

/-- C1, amended: whenever the score assembly completes without error,
`leftScore` lies in `[-1, 10]` and `rightScore` lies in `[0, 11]` (the
raw count of the 12-dot walk lies in `[0, 11]`, and the left score is
10 minus it). -/
theorem C1_amended_range (L R : List SlicePair) (s : ScoreData)
    (h : get_score L R = Except.ok s) :
    -1 ≤ s.leftScore ∧ s.leftScore ≤ 10 ∧ 0 ≤ s.rightScore ∧ s.rightScore ≤ 11 := by
  obtain ⟨sl, sr, hL, hR, rfl⟩ := get_score_ok_inv h
  have h1 := fsfi_ok_le hL
  have h2 := fsfi_ok_le hR
  refine ⟨?_, ?_, ?_, ?_⟩ <;> simp only [ScoreData.leftScore, ScoreData.rightScore] <;> omega

/-- C1, witness for the amended theorem at the evenly-spaced input. -/
theorem C1_amended_range_witness :
    -1 ≤ (ScoreData.mk (-1) 11).leftScore ∧ (ScoreData.mk (-1) 11).leftScore ≤ 10 ∧
    0 ≤ (ScoreData.mk (-1) 11).rightScore ∧ (ScoreData.mk (-1) 11).rightScore ≤ 11 :=
  C1_amended_range L12 L12 ⟨-1, 11⟩ get_score_L12

/-- C2, counterexample.  The claim that cropping a degenerate box fails
with an `EmptyCrop` error is false: `crop_boxes` contains no emptiness
check at all.  On a box whose four corners coincide (derived rectangle
of zero width and height) the numpy slice is simply empty and the crop
loop returns an empty image in its result list, not an error. -/
theorem C2_counterexample :
    crop_boxes img3 [degBox] = [([] : List (List ℤ))] ∧
    (find_crop_corners degBox).1.1 = (find_crop_corners degBox).2.1 ∧
    (find_crop_corners degBox).1.2 = (find_crop_corners degBox).2.2 := by
  refine ⟨?_, by decide, by decide⟩
  rfl

/-- C2, amended: whenever the axis-aligned rectangle derived from a
box's four corners has zero width or zero height, the crop of that box
is the empty image (no error is raised; the function is total). -/
theorem C2_amended (α : Type) (image : List (List α)) (box : List Pt)
    (h : (find_crop_corners box).1.1 = (find_crop_corners box).2.1 ∨
         (find_crop_corners box).1.2 = (find_crop_corners box).2.2) :
    crop_box image box = [] :=
  crop_box_degenerate image box h

/-- C2, witness for the amended theorem at the degenerate box. -/
theorem C2_amended_witness : crop_box img3 degBox = ([] : List (List ℤ)) :=
  C2_amended ℤ img3 degBox (Or.inl (by decide))

/-- C3, counterexample.  For 12 points there are 11 consecutive gaps and
the code divides their sum by 11 (the length of the gap list), not by 10
as the claim states: on 12 collinear points with unit gaps the average
is `11 / 11 = 1`, whereas the claim would predict `11 / 10`. -/
theorem C3_counterexample :
    average_distance_between_score_dots pts12unit = 1 ∧
    (consecutiveDistances pts12unit).sum = 11 ∧
    average_distance_between_score_dots pts12unit ≠
      (consecutiveDistances pts12unit).sum / 10 := by
  have hg : ∀ g ∈ List.replicate 11 (1 : ℤ), 0 ≤ g := by
    intro g hgm
    rw [eq_of_mem_replicate hgm]
    norm_num
  have h1 : average_distance_between_score_dots pts12unit = 1 := by
    unfold pts12unit
    rw [average_ptsFromGaps hg, castGaps_replicate]
    rw [sum_replicate, nsmul_eq_mul]
    norm_num
  have h2 : (consecutiveDistances pts12unit).sum = 11 := by
    unfold pts12unit
    rw [consecutiveDistances_ptsFromGaps hg, castGaps_replicate]
    rw [sum_replicate, nsmul_eq_mul]
    norm_num
  refine ⟨h1, h2, ?_⟩
  rw [h1, h2]
  norm_num

/-- C3, amended: for every sequence of 12 dot centroids the average
consecutive distance equals the sum of the 11 consecutive gaps divided
by 11 (the number of gaps), not by 10. -/
theorem C3_amended (pts : List Pt) (h : pts.length = 12) :
    average_distance_between_score_dots pts = (consecutiveDistances pts).sum / 11 := by
  unfold average_distance_between_score_dots
  rw [consecutiveDistances_length, h]
  norm_num

/-- C3, witness for the amended theorem at the unit-gap points. -/
theorem C3_amended_witness :
    average_distance_between_score_dots pts12unit =
      (consecutiveDistances pts12unit).sum / 11 :=
  C3_amended pts12unit (by decide)

/-- C4: the area filter keeps exactly the components whose bounding-box
area lies inclusively in `[MIN_SCORE_AREA, MAX_SCORE_AREA]` (the code's
skip condition coincides with the spec's inclusive-bounds filter), the
dot counter returns a score if and only if exactly 12 components
survive, and for any other surviving count it fails with an
`InvalidDotCount` error reporting the found count and expected 12. -/
theorem C4_area_filter_and_count (slices : List SlicePair) :
    slices.filter keeps_area = specSurvivors slices ∧
    ((∃ v, find_score_from_image slices = Except.ok v) ↔
      (specSurvivors slices).length = 12) ∧
    ((specSurvivors slices).length ≠ 12 →
      find_score_from_image slices =
        Except.error (ScoreError.invalidDotCount (specSurvivors slices).length 12)) := by
  have hfilter := filter_keeps_area_eq slices
  have hobj : ((slices.filter keeps_area).map slice_center).length
      = (specSurvivors slices).length := by
    rw [length_map, hfilter]
  refine ⟨hfilter, ⟨?_, ?_⟩, ?_⟩
  · rintro ⟨v, hv⟩
    simp only [find_score_from_image] at hv
    by_cases hlen : ((slices.filter keeps_area).map slice_center).length ≠ 12
    · rw [if_pos hlen] at hv
      cases hv
    · push_neg at hlen
      rw [← hobj]
      exact hlen
  · intro hlen
    refine ⟨find_score ((slices.filter keeps_area).map slice_center), ?_⟩
    simp only [find_score_from_image]
    rw [if_neg (by rw [hobj]; omega)]
  · intro hne
    simp only [find_score_from_image]
    rw [if_pos (by rw [hobj]; exact hne), hobj]

/-- C4, witness: with only 11 valid-area components the counter fails
with `InvalidDotCount` reporting 11 found and 12 expected. -/
theorem C4_area_filter_and_count_witness :
    (specSurvivors L11).length ≠ 12 ∧
    find_score_from_image L11 =
      Except.error (ScoreError.invalidDotCount (specSurvivors L11).length 12) :=
  ⟨by decide, (C4_area_filter_and_count L11).2.2 (by decide)⟩

/-- C5: the raw count equals the length of the longest prefix of
consecutive gaps (of the x-sorted points) that do not exceed the average
gap — the walk stops at the first gap strictly exceeding the average —
and in particular, for 12 points evenly spaced by `d` with one strictly
larger gap `D` inserted after position `k ≤ 10`, the returned score is
exactly `k`. -/
theorem C5_scoring_walk :
    (∀ pts : List Pt, find_score pts =
      ((consecutiveDistances (insertionSort pointLe pts)).takeWhile
        (fun g => decide (g ≤ average_distance_between_score_dots
          (insertionSort pointLe pts)))).length) ∧
    (∀ (x0 y0 d D : ℤ) (k : ℕ), 0 ≤ d → d < D → k ≤ 10 →
      find_score (ptsFromGaps x0 y0
        (List.replicate k d ++ D :: List.replicate (10 - k) d)) = k) := by
  constructor
  · intro pts
    simp only [find_score]
    exact score_walk_eq_takeWhile _ _
  · intro x0 y0 d D k hd hdD hk
    exact find_score_one_big_gap x0 y0 d D k hd hdD hk

/-- C5, witness: unit gaps with a gap of 2 inserted after position 3
yield a score of 3. -/
theorem C5_scoring_walk_witness :
    find_score (ptsFromGaps 0 0
      (List.replicate 3 (1 : ℤ) ++ (2 : ℤ) :: List.replicate (10 - 3) (1 : ℤ))) = 3 :=
  C5_scoring_walk.2 0 0 1 2 3 (by norm_num) (by norm_num) (by norm_num)

/-- C6: in the assembled result the left score is 10 minus the raw
count of the left region and the right score is the right region's raw
count unmodified (and both regions must succeed). -/
theorem C6_assembly (L R : List SlicePair) (sl sr : ℕ)
    (hL : find_score_from_image L = Except.ok sl)
    (hR : find_score_from_image R = Except.ok sr) :
    get_score L R = Except.ok ⟨10 - (sl : ℤ), (sr : ℤ)⟩ :=
  get_score_eq_ok hL hR

/-- C6, witness at the evenly-spaced 12-dot regions (raw count 11 on
both sides). -/
theorem C6_assembly_witness :
    get_score L12 L12 = Except.ok ⟨10 - ((11 : ℕ) : ℤ), ((11 : ℕ) : ℤ)⟩ :=
  C6_assembly L12 L12 11 11 fsfi_L12 fsfi_L12

/-- C9: the score-box derivation is scale-invariant up to integer
rounding: scaling the four corners by any integer `k ≥ 1` yields boxes
whose every coordinate differs from `k` times the unscaled coordinate
by at most `24 * k` (a bound determined by the number of floor/truncate
roundings in the derivation chain). -/
theorem C9_scale_invariance (c0 c1 c2 c3 : Pt) (k : ℤ) (hk : 1 ≤ k) :
    approxBox k
      (find_score_boxes [scalePt k c0, scalePt k c1, scalePt k c2, scalePt k c3]).1
      (find_score_boxes [c0, c1, c2, c3]).1 (24 * k) ∧
    approxBox k
      (find_score_boxes [scalePt k c0, scalePt k c1, scalePt k c2, scalePt k c3]).2
      (find_score_boxes [c0, c1, c2, c3]).2 (24 * k) :=
  find_score_boxes_scale_approx hk c0 c1 c2 c3

/-- C9, witness at a concrete corner set with `k = 2`. -/
theorem C9_scale_invariance_witness :
    approxBox 2
      (find_score_boxes [scalePt 2 ((0 : ℤ), (0 : ℤ)), scalePt 2 ((1 : ℤ), (0 : ℤ)),
        scalePt 2 ((0 : ℤ), (5 : ℤ)), scalePt 2 ((0 : ℤ), (-5 : ℤ))]).1
      (find_score_boxes [((0 : ℤ), (0 : ℤ)), ((1 : ℤ), (0 : ℤ)),
        ((0 : ℤ), (5 : ℤ)), ((0 : ℤ), (-5 : ℤ))]).1 (24 * 2) ∧
    approxBox 2
      (find_score_boxes [scalePt 2 ((0 : ℤ), (0 : ℤ)), scalePt 2 ((1 : ℤ), (0 : ℤ)),
        scalePt 2 ((0 : ℤ), (5 : ℤ)), scalePt 2 ((0 : ℤ), (-5 : ℤ))]).2
      (find_score_boxes [((0 : ℤ), (0 : ℤ)), ((1 : ℤ), (0 : ℤ)),
        ((0 : ℤ), (5 : ℤ)), ((0 : ℤ), (-5 : ℤ))]).2 (24 * 2) :=
  C9_scale_invariance ((0 : ℤ), (0 : ℤ)) ((1 : ℤ), (0 : ℤ)) ((0 : ℤ), (5 : ℤ))
    ((0 : ℤ), (-5 : ℤ)) 2 (by norm_num)

/-- C10: for every list of at least 2 dot centers the raw count of the
scoring walk is at most `n - 1` (it is a natural number, hence at least
0); when no consecutive gap of the sorted points exceeds the average
the count is exactly `n - 1`; and the upper bound 11 for the pipeline's
12 points is attained on 12 evenly spaced points. -/
theorem C10_walk_range :
    (∀ pts : List Pt, 2 ≤ pts.length → find_score pts ≤ pts.length - 1) ∧
    (∀ pts : List Pt,
      (∀ g ∈ consecutiveDistances (insertionSort pointLe pts),
        g ≤ average_distance_between_score_dots (insertionSort pointLe pts)) →
      find_score pts = pts.length - 1) ∧
    pts12unit.length = 12 ∧ find_score pts12unit = 11 := by
  refine ⟨fun pts _ => find_score_le pts, ?_, by decide, ?_⟩
  · intro pts hg
    have h := score_walk_full
      (average_distance_between_score_dots (insertionSort pointLe pts))
      (insertionSort pointLe pts) hg
    simpa [find_score, length_insertionSort] using h
  · unfold pts12unit
    exact find_score_replicate 0 0 1 11 (by norm_num)

/-- C10, witness: the bound applied to the 12 evenly spaced points. -/
theorem C10_walk_range_witness :
    find_score pts12unit ≤ pts12unit.length - 1 :=
  C10_walk_range.1 pts12unit (by decide)

/-- C7: for any 4 corners the end finder returns exactly 2 of the 6
pairwise combinations, every returned pair has distance no larger than
every non-returned pair (they are the 2 smallest of the 6 pairwise
distances, stably selected), and the result is sorted ascending by
Python tuple order. -/
theorem C7_table_ends (p0 p1 p2 p3 : Pt) :
    (find_table_ends [p0, p1, p2, p3]).length = 2 ∧
    (∀ e ∈ find_table_ends [p0, p1, p2, p3], e ∈ combinations2 [p0, p1, p2, p3]) ∧
    (∀ e ∈ find_table_ends [p0, p1, p2, p3], ∀ f ∈ combinations2 [p0, p1, p2, p3],
      f ∉ find_table_ends [p0, p1, p2, p3] →
      distance_between_points e ≤ distance_between_points f) ∧
    Sorted pairLe (find_table_ends [p0, p1, p2, p3]) := by
  have hslen : (insertionSort distLe (combinations2 [p0, p1, p2, p3])).length = 6 := by
    rw [length_insertionSort, combinations2_four]
    rfl
  obtain ⟨a, b, c, d, e5, f6, hs6⟩ := list_len6 hslen
  have hsorted : Sorted distLe [a, b, c, d, e5, f6] := by
    rw [← hs6]
    exact sorted_insertionSort distLe _
  have hends : find_table_ends [p0, p1, p2, p3] = insertionSort pairLe [a, b] := by
    unfold find_table_ends
    rw [hs6]
    rfl
  have hmem_ends : ∀ x, x ∈ find_table_ends [p0, p1, p2, p3] ↔ (x = a ∨ x = b) := by
    intro x
    rw [hends, mem_insertionSort]
    simp
  have hmem_s : ∀ x, x ∈ combinations2 [p0, p1, p2, p3] ↔ x ∈ [a, b, c, d, e5, f6] := by
    intro x
    rw [← hs6, mem_insertionSort]
  have hfacts := hsorted
  simp only [sorted_cons, mem_cons, mem_singleton, not_mem_nil, forall_eq_or_imp,
    forall_eq, sorted_nil, and_true, false_implies, implies_true] at hfacts
  obtain ⟨⟨hab, hac, had, hae, haf⟩, ⟨hbc, hbd, hbe, hbf⟩, -, -, -⟩ := hfacts
  refine ⟨?_, ?_, ?_, ?_⟩
  · rw [hends, length_insertionSort]
    rfl
  · intro e he
    rw [hmem_ends] at he
    rw [hmem_s]
    rcases he with rfl | rfl <;> simp
  · intro e he f hf hnf
    rw [hmem_ends] at he
    rw [hmem_ends] at hnf
    rw [hmem_s] at hf
    push_neg at hnf
    obtain ⟨hna, hnb⟩ := hnf
    simp only [mem_cons, mem_singleton, not_mem_nil, or_false] at hf
    have hfc : f = c ∨ f = d ∨ f = e5 ∨ f = f6 := by
      rcases hf with rfl | rfl | h | h | h | h
      · exact absurd rfl hna
      · exact absurd rfl hnb
      · exact Or.inl h
      · exact Or.inr (Or.inl h)
      · exact Or.inr (Or.inr (Or.inl h))
      · exact Or.inr (Or.inr (Or.inr h))
    rcases he with rfl | rfl <;> rcases hfc with rfl | rfl | rfl | rfl <;> assumption
  · rw [hends]
    exact sorted_insertionSort pairLe _

/-- C7, witness at the cross-shaped corners: the returned end
`((0,0),(0,5))` has distance no larger than the non-returned
combination `((0,5),(0,-5))`. -/
theorem C7_table_ends_witness :
    distance_between_points (((0 : ℤ), (0 : ℤ)), ((0 : ℤ), (5 : ℤ))) ≤
      distance_between_points (((0 : ℤ), (5 : ℤ)), ((0 : ℤ), (-5 : ℤ))) := by
  have h := (C7_table_ends ((0 : ℤ), (0 : ℤ)) ((1 : ℤ), (0 : ℤ)) ((0 : ℤ), (5 : ℤ))
    ((0 : ℤ), (-5 : ℤ))).2.2.1
  apply h
  · rw [find_table_ends_cross]
    simp
  · rw [combinations2_four]
    simp
  · rw [find_table_ends_cross]
    decide

/-- C8: for any 4 corners the lower-long-side finder returns as its
first point a corner of maximal y-coordinate (the last element of the
(y, x)-sorted corners), as its second point one of the 2nd and 3rd
elements of that sorted order (never the minimal one), and the second
point is at least as far from the first as the other middle candidate. -/
theorem C8_lower_long_side (c0 c1 c2 c3 : Pt) :
    ∃ s0 s1 s2 s3,
      insertionSort pointLe [flip c0, flip c1, flip c2, flip c3] = [s0, s1, s2, s3] ∧
      ((find_lower_long_side c0 c1 c2 c3).1 ∈ [c0, c1, c2, c3] ∧
        ∀ p ∈ [c0, c1, c2, c3], p.2 ≤ (find_lower_long_side c0 c1 c2 c3).1.2) ∧
      ((find_lower_long_side c0 c1 c2 c3).2 = flip s1 ∨
        (find_lower_long_side c0 c1 c2 c3).2 = flip s2) ∧
      distance_between_points ((find_lower_long_side c0 c1 c2 c3).1, flip s1) ≤
        distance_between_points ((find_lower_long_side c0 c1 c2 c3).1,
          (find_lower_long_side c0 c1 c2 c3).2) ∧
      distance_between_points ((find_lower_long_side c0 c1 c2 c3).1, flip s2) ≤
        distance_between_points ((find_lower_long_side c0 c1 c2 c3).1,
          (find_lower_long_side c0 c1 c2 c3).2) := by
  have hlen : (insertionSort pointLe [flip c0, flip c1, flip c2, flip c3]).length = 4 := by
    rw [length_insertionSort]
    rfl
  obtain ⟨s0, s1, s2, s3, hs⟩ := list_len4 hlen
  have hfll : find_lower_long_side c0 c1 c2 c3 =
      (flip s3, flip (if distance_between_points (s3, s1) >
        distance_between_points (s3, s2) then s1 else s2)) := by
    simp only [find_lower_long_side, hs]
    rfl
  have hsorted : Sorted pointLe [s0, s1, s2, s3] := by
    rw [← hs]
    exact sorted_insertionSort pointLe _
  have hfacts := hsorted
  simp only [sorted_cons, mem_cons, mem_singleton, not_mem_nil, forall_eq_or_imp,
    forall_eq, sorted_nil, and_true, false_implies, implies_true] at hfacts
  obtain ⟨⟨h01, h02, h03⟩, ⟨h12, h13⟩, h23⟩ := hfacts
  refine ⟨s0, s1, s2, s3, hs, ⟨?_, ?_⟩, ?_, ?_, ?_⟩
  · rw [hfll]
    dsimp only
    have hs3mem : s3 ∈ [flip c0, flip c1, flip c2, flip c3] := by
      have hmem : s3 ∈ insertionSort pointLe [flip c0, flip c1, flip c2, flip c3] := by
        rw [hs]
        simp
      rw [mem_insertionSort] at hmem
      exact hmem
    simp only [mem_cons, mem_singleton, not_mem_nil, or_false] at hs3mem ⊢
    rcases hs3mem with h | h | h | h <;> rw [h] <;> simp [flip_flip]
  · intro p hp
    rw [hfll]
    dsimp only
    have hmem : flip p ∈ [s0, s1, s2, s3] := by
      rw [← hs]
      rw [mem_insertionSort]
      simp only [mem_cons, mem_singleton, not_mem_nil, or_false] at hp ⊢
      rcases hp with rfl | rfl | rfl | rfl <;> simp
    have hple : (flip p).1 ≤ s3.1 := by
      simp only [mem_cons, mem_singleton, not_mem_nil, or_false] at hmem
      rcases hmem with h | h | h | h
      · rw [h]
        exact pointLe_fst h03
      · rw [h]
        exact pointLe_fst h13
      · rw [h]
        exact pointLe_fst h23
      · rw [h]
    exact hple
  · rw [hfll]
    dsimp only
    by_cases hgt : distance_between_points (s3, s1) > distance_between_points (s3, s2)
    · rw [if_pos hgt]
      left
      rfl
    · rw [if_neg hgt]
      right
      rfl
  · rw [hfll]
    dsimp only
    by_cases hgt : distance_between_points (s3, s1) > distance_between_points (s3, s2)
    · rw [if_pos hgt]
    · rw [if_neg hgt]
      rw [dist_flip, dist_flip]
      exact le_of_not_lt hgt
  · rw [hfll]
    dsimp only
    by_cases hgt : distance_between_points (s3, s1) > distance_between_points (s3, s2)
    · rw [if_pos hgt]
      rw [dist_flip, dist_flip]
      exact le_of_lt hgt
    · rw [if_neg hgt]

/-- C8, witness: for the rectangle corners `(0,0), (3,0), (3,4), (0,4)`
the corner `(3,4)` has y-coordinate at most that of the returned
lowest-corner point. -/
theorem C8_lower_long_side_witness :
    ((3 : ℤ), (4 : ℤ)).2 ≤
      (find_lower_long_side ((0 : ℤ), (0 : ℤ)) ((3 : ℤ), (0 : ℤ)) ((3 : ℤ), (4 : ℤ))
        ((0 : ℤ), (4 : ℤ))).1.2 := by
  obtain ⟨s0, s1, s2, s3, -, ⟨-, hmax⟩, -⟩ :=
    C8_lower_long_side ((0 : ℤ), (0 : ℤ)) ((3 : ℤ), (0 : ℤ)) ((3 : ℤ), (4 : ℤ))
      ((0 : ℤ), (4 : ℤ))
  exact hmax ((3 : ℤ), (4 : ℤ)) (by simp)

end CountScore
